/-
Verification of the conversation chunking engine of total_recall
(src/cli/chunker_engine.py) against its natural-language specification.

The engine is embedded shallowly: conversations and messages are the record
shapes documented in the data model (id, title, ordered messages with role and
content, plus the two split markers the engine itself adds), and the Python
json.dumps serialization (default separators, ensure_ascii) is reproduced so
that the token estimator `len(text) // 4` computes the same numbers the code
computes.  The three strategy functions and the file driver are translated
loop by loop; Python list appends become appends at the tail of Lean lists,
and the nested role loop is flattened into a single fold over
(conversation, role-group) pairs, which preserves the threaded state exactly.
-/
import Mathlib

set_option maxRecDepth 20000

namespace TotalRecall

/-- Token estimator: `count_tokens` from chunker_engine.py, the approximation
`len(text) // 4`. -/
def count_tokens (text : String) : Nat := text.length / 4

/-- A message record: role and content strings (data model section 3). -/
structure Message where
  role : String
  content : String
deriving DecidableEq

/-- A conversation record: id, title, ordered messages.  The two boolean
fields model the presence of the `_chunked` and `_chunked_by_role` marker keys
the engine adds to derived copies; input conversations carry neither. -/
structure Conversation where
  id : String
  title : String
  messages : List Message
  chunked : Bool := false
  chunkedByRole : Bool := false
deriving DecidableEq

instance : Inhabited Conversation := ⟨⟨"", "", [], false, false⟩⟩

/-- One hex digit, lowercase, as python's json module emits in \u escapes. -/
def hexDigit (n : Nat) : Char :=
  if n < 10 then Char.ofNat (48 + n) else Char.ofNat (87 + n)

/-- Four lowercase hex digits. -/
def hex4 (n : Nat) : String :=
  String.mk [hexDigit (n / 4096 % 16), hexDigit (n / 256 % 16),
             hexDigit (n / 16 % 16), hexDigit (n % 16)]

/-- Escaping of a single character exactly as python json.dumps does with the
default ensure_ascii=True: named escapes for quote, backslash and the short
control characters, \uXXXX (with surrogate pairs) for every other character
outside the printable ASCII range 0x20-0x7e. -/
def escapeChar (c : Char) : String :=
  if c = Char.ofNat 34 then String.mk [Char.ofNat 92, Char.ofNat 34]
  else if c = Char.ofNat 92 then String.mk [Char.ofNat 92, Char.ofNat 92]
  else if c.toNat = 10 then "\\n"
  else if c.toNat = 13 then "\\r"
  else if c.toNat = 9 then "\\t"
  else if c.toNat = 8 then "\\b"
  else if c.toNat = 12 then "\\f"
  else if c.toNat < 32 || c.toNat > 126 then
    if c.toNat ≤ 65535 then "\\u" ++ hex4 c.toNat
    else
      "\\u" ++ hex4 (55296 + (c.toNat - 65536) / 1024) ++
      "\\u" ++ hex4 (56320 + (c.toNat - 65536) % 1024)
  else String.mk [c]

/-- json.dumps of a string: the escaped characters between double quotes. -/
def dumpString (s : String) : String :=
  "\"" ++ (s.data.map escapeChar).foldr (· ++ ·) "" ++ "\""

/-- json.dumps of a message dict, default separators (", " and ": "),
keys in insertion order role, content. -/
def dumpMessage (m : Message) : String :=
  "\x7b\"role\": " ++ dumpString m.role ++ ", \"content\": " ++
    dumpString m.content ++ "\x7d"

/-- Joins serialized array elements with the default json item separator ", ". -/
def joinSep : List String → String
  | [] => ""
  | [x] => x
  | x :: xs => x ++ ", " ++ joinSep xs

/-- json.dumps of a conversation dict: keys in insertion order id, title,
messages, then the marker keys that the engine appends on derived copies. -/
def dumpConversation (c : Conversation) : String :=
  "\x7b\"id\": " ++ dumpString c.id ++ ", \"title\": " ++ dumpString c.title ++
    ", \"messages\": [" ++ joinSep (c.messages.map dumpMessage) ++ "]" ++
    (if c.chunked then ", \"_chunked\": true" else "") ++
    (if c.chunkedByRole then ", \"_chunked_by_role\": true" else "") ++ "\x7d"

/-- Estimated token cost of a serialized message, `count_tokens(json.dumps(msg))`. -/
def msgCost (m : Message) : Nat := count_tokens (dumpMessage m)

/-- Estimated token cost of a serialized conversation,
`count_tokens(json.dumps(conv))`. -/
def convCost (c : Conversation) : Nat := count_tokens (dumpConversation c)

/-- A chunk record as built by the engine. -/
structure Chunk where
  conversations : List Conversation
  token_count : Nat
  chunk_strategy : String
deriving DecidableEq

/-- The derived copy the split paths build: `conv.copy()` with `messages`
replaced and the appropriate marker key set (`_chunked` in chunk_by_size,
`_chunked_by_role` in chunk_by_role). -/
def mkSplitConv (conv : Conversation) (msgs : List Message) (byRole : Bool) :
    Conversation :=
  if byRole then { conv with messages := msgs, chunkedByRole := true }
  else { conv with messages := msgs, chunked := true }

/-- The message-by-message split loop shared verbatim by chunk_by_size
(lines 72-107) and chunk_by_role (lines 244-278): greedy accumulation of
messages into `temp_messages`/`temp_tokens`, flushing a single-conversation
chunk when the next message would overflow.  Note the faithful reproduction of
the source's `if temp_messages:` guard: when `temp_messages` is empty and the
message alone overflows, the message is neither kept nor emitted. -/
def splitOversized (conv : Conversation) (max_tokens : Nat) (byRole : Bool)
    (strategy : String) :
    List Message → List Message → Nat → List Chunk
  | [], temp_messages, temp_tokens =>
      if temp_messages.isEmpty then []
      else [⟨[mkSplitConv conv temp_messages byRole], temp_tokens, strategy⟩]
  | msg :: rest, temp_messages, temp_tokens =>
      let msg_tokens := msgCost msg
      if temp_tokens + msg_tokens > max_tokens then
        if temp_messages.isEmpty then
          splitOversized conv max_tokens byRole strategy rest temp_messages temp_tokens
        else
          ⟨[mkSplitConv conv temp_messages byRole], temp_tokens, strategy⟩ ::
            splitOversized conv max_tokens byRole strategy rest [msg] msg_tokens
      else
        splitOversized conv max_tokens byRole strategy rest
          (temp_messages ++ [msg]) (temp_tokens + msg_tokens)

/-- The main loop of chunk_by_size (lines 52-129), threading the running
current_chunk and current_tokens. -/
def sizeLoop (max_tokens : Nat) :
    List Conversation → List Conversation → Nat → List Chunk
  | [], current_chunk, current_tokens =>
      if current_chunk.isEmpty then []
      else [⟨current_chunk, current_tokens, "size"⟩]
  | conv :: rest, current_chunk, current_tokens =>
      let conv_tokens := convCost conv
      if conv_tokens > max_tokens then
        (if current_chunk.isEmpty then []
         else [⟨current_chunk, current_tokens, "size"⟩]) ++
        splitOversized conv max_tokens false "size" conv.messages [] 0 ++
        sizeLoop max_tokens rest [] 0
      else if current_tokens + conv_tokens ≤ max_tokens then
        sizeLoop max_tokens rest (current_chunk ++ [conv]) (current_tokens + conv_tokens)
      else
        ⟨current_chunk, current_tokens, "size"⟩ ::
          sizeLoop max_tokens rest [conv] conv_tokens

/-- `ChunkerEngine.chunk_by_size`. -/
def chunk_by_size (conversations : List Conversation) (max_tokens : Nat) :
    List Chunk :=
  sizeLoop max_tokens conversations [] 0

/-- Word characters of python's `\w` (restricted to the ASCII range the model
uses): alphanumerics and underscore. -/
def wordChar (c : Char) : Bool := c.isAlphanum || c = '_'

/-- Maximal runs of word characters, i.e. `re.findall(r'\w+', s)`; the
accumulator holds the current run reversed. -/
def splitWords : List Char → List Char → List String
  | [], acc => if acc.isEmpty then [] else [String.mk acc.reverse]
  | c :: cs, acc =>
      if wordChar c then splitWords cs (c :: acc)
      else if acc.isEmpty then splitWords cs []
      else String.mk acc.reverse :: splitWords cs []

/-- `re.findall(r'\w+', s.lower())`. -/
def topicWords (s : String) : List String := splitWords s.toLower.data []

/-- `set(re.findall(r'\w+', s.lower()))`, as a duplicate-free list. -/
def wordSet (s : String) : List String := (topicWords s).dedup

/-- The similarity test of chunk_by_topic, lines 173-178:
`len(common_words) / max(1, len(seed_words)) > 0.3`.  The float comparison is
modelled by the exact rational comparison `10 * common > 3 * max 1 seed`,
which agrees with the IEEE double computation for all set sizes that can
arise (the quotient of two small naturals and the literal 0.3 round to equal
doubles only when the rational values are on the same side of 3/10). -/
def similarityOk (seedTopic candTopic : String) : Bool :=
  let sw := wordSet seedTopic
  let cw := wordSet candTopic
  let common := (sw.inter cw).length
  10 * common > 3 * max 1 sw.length

/-- Topic signal per conversation, lines 142-151: the title if non-empty,
else the first message's content, else the empty string. -/
def topicOf (conv : Conversation) : String :=
  if conv.title ≠ "" then conv.title
  else
    match conv.messages with
    | m :: _ => m.content
    | [] => ""

/-- The inner scan of chunk_by_topic (lines 167-183): over the later indices
`js`, skip assigned ones, and add a similar candidate when it keeps the
cluster within budget, marking it assigned. -/
def topicInner (conversations : List Conversation) (topics : List String)
    (seedTopic : String) (max_tokens : Nat) :
    List Nat → List Bool → List Nat → Nat → List Bool × List Nat × Nat
  | [], assigned, cluster, cluster_tokens => (assigned, cluster, cluster_tokens)
  | j :: js, assigned, cluster, cluster_tokens =>
      if assigned.getD j false then
        topicInner conversations topics seedTopic max_tokens js assigned cluster cluster_tokens
      else if similarityOk seedTopic (topics.getD j "") then
        let conv_tokens := convCost (conversations.getD j default)
        if cluster_tokens + conv_tokens ≤ max_tokens then
          topicInner conversations topics seedTopic max_tokens js
            (assigned.set j true) (cluster ++ [j]) (cluster_tokens + conv_tokens)
        else
          topicInner conversations topics seedTopic max_tokens js assigned cluster cluster_tokens
      else
        topicInner conversations topics seedTopic max_tokens js assigned cluster cluster_tokens

/-- The outer seed loop of chunk_by_topic (lines 158-188).  Iterating the
index list in order, an unassigned index seeds a cluster holding itself and
whatever the inner scan over the remaining indices adds. -/
def topicOuter (conversations : List Conversation) (topics : List String)
    (max_tokens : Nat) :
    List Nat → List Bool → List (List Nat × Nat)
  | [], _ => []
  | i :: is, assigned =>
      if assigned.getD i false then
        topicOuter conversations topics max_tokens is assigned
      else
        let seedTokens := convCost (conversations.getD i default)
        let r := topicInner conversations topics (topics.getD i "") max_tokens
          is (assigned.set i true) [i] seedTokens
        (r.2.1, r.2.2) :: topicOuter conversations topics max_tokens is r.1

/-- The clusters (index lists with token totals) chunk_by_topic builds. -/
def topicClusters (conversations : List Conversation) (max_tokens : Nat) :
    List (List Nat × Nat) :=
  topicOuter conversations (conversations.map topicOf) max_tokens
    (List.range conversations.length)
    (List.replicate conversations.length false)

/-- `ChunkerEngine.chunk_by_topic`: clusters converted to chunks, lines 190-198. -/
def chunk_by_topic (conversations : List Conversation) (max_tokens : Nat) :
    List Chunk :=
  (topicClusters conversations max_tokens).map fun cl =>
    ⟨cl.1.map (fun i => conversations.getD i default), cl.2, "topic"⟩

/-- Grouping of a message list into maximal runs of consecutive same-role
messages, lines 213-229 (the running role starts as python None, hence the
Option). -/
def roleGroups : List Message → Option String → List Message → List (List Message)
  | [], _, current_group =>
      if current_group.isEmpty then [] else [current_group]
  | msg :: rest, current_role, current_group =>
      if some msg.role ≠ current_role ∧ ¬ current_group.isEmpty then
        current_group :: roleGroups rest (some msg.role) [msg]
      else
        roleGroups rest (some msg.role) (current_group ++ [msg])

/-- The nested loops of chunk_by_role visit, in order, every (conversation,
role group) pair; the outer state is threaded through all of them, so the
pair list drives a single fold. -/
def rolePairs (conversations : List Conversation) :
    List (Conversation × List Message) :=
  conversations.flatMap fun conv =>
    (roleGroups conv.messages none []).map fun g => (conv, g)

/-- The body of chunk_by_role (lines 232-301) as a fold over the
(conversation, role group) pairs.  An oversized group is split message by
message with the outer running chunk left untouched (the source, unlike
chunk_by_size, performs no flush there). -/
def roleLoop (max_tokens : Nat) :
    List (Conversation × List Message) → List Conversation → Nat → List Chunk
  | [], current_chunk, current_tokens =>
      if current_chunk.isEmpty then []
      else [⟨current_chunk, current_tokens, "role"⟩]
  | (conv, group) :: rest, current_chunk, current_tokens =>
      let group_conv := mkSplitConv conv group true
      let group_tokens := convCost group_conv
      if group_tokens > max_tokens then
        splitOversized conv max_tokens true "role" group [] 0 ++
          roleLoop max_tokens rest current_chunk current_tokens
      else if current_tokens + group_tokens ≤ max_tokens then
        roleLoop max_tokens rest (current_chunk ++ [group_conv])
          (current_tokens + group_tokens)
      else
        (if current_chunk.isEmpty then []
         else [⟨current_chunk, current_tokens, "role"⟩]) ++
          roleLoop max_tokens rest [group_conv] group_tokens

/-- `ChunkerEngine.chunk_by_role`. -/
def chunk_by_role (conversations : List Conversation) (max_tokens : Nat) :
    List Chunk :=
  roleLoop max_tokens (rolePairs conversations) [] 0

/-- The classified shape of the loaded collection in process_file: a dict
exposing "conversations", a bare list, or anything else (lines 313-318). -/
inductive LoadedData where
  | wrapped (conversations : List Conversation)
  | bareList (conversations : List Conversation)
  | malformed
deriving DecidableEq

/-- The record process_file serializes to the output file (lines 341-349). -/
structure ProcessingResult where
  chunks : List Chunk
  original_file : String
  chunking_strategy : String
  max_tokens_per_chunk : Nat
  total_chunks : Nat
  total_conversations : Nat
deriving DecidableEq

/-- The message printed when the loaded collection has neither accepted shape
(the ValueError of line 318 caught and reported at line 320). -/
def invalidFormatMsg : String :=
  "Error loading conversations: Invalid conversation format"

/-- The message printed for a strategy outside the three known ones (line 331). -/
def unknownStrategyMsg (strategy : String) : String :=
  "Unknown chunking strategy: " ++ strategy

/-- `ChunkerEngine.process_file` (lines 305-351), modelled on the already
loaded data: failure paths return the printed message (the python returns
None after printing it and writes no output file); the success path returns
the ProcessingResult that is serialized to the output file. -/
def process_file (file_path : String) (data : LoadedData) (strategy : String)
    (max_tokens : Nat) : Except String ProcessingResult :=
  match data with
  | .malformed => .error invalidFormatMsg
  | .wrapped conversations | .bareList conversations =>
      if strategy = "size" then
        let chunks := chunk_by_size conversations max_tokens
        .ok ⟨chunks, file_path, strategy, max_tokens, chunks.length,
             (chunks.map (fun c => c.conversations.length)).sum⟩
      else if strategy = "topic" then
        let chunks := chunk_by_topic conversations max_tokens
        .ok ⟨chunks, file_path, strategy, max_tokens, chunks.length,
             (chunks.map (fun c => c.conversations.length)).sum⟩
      else if strategy = "role" then
        let chunks := chunk_by_role conversations max_tokens
        .ok ⟨chunks, file_path, strategy, max_tokens, chunks.length,
             (chunks.map (fun c => c.conversations.length)).sum⟩
      else .error (unknownStrategyMsg strategy)

/-- Total number of messages in an input conversation list. -/
def totalInputMessages (conversations : List Conversation) : Nat :=
  (conversations.map (fun c => c.messages.length)).sum

/-- Total number of messages across all conversations of all chunks. -/
def totalChunkMessages (chunks : List Chunk) : Nat :=
  (chunks.map (fun ch =>
    (ch.conversations.map (fun c => c.messages.length)).sum)).sum

/-- The messages of all chunks, flattened in emitted order. -/
def flattenedMessages (chunks : List Chunk) : List Message :=
  (chunks.map (fun ch => (ch.conversations.map Conversation.messages).flatten)).flatten

/-- Sum of the serialized token costs of a chunk's conversation entries. -/
def entryCostSum (c : Chunk) : Nat := (c.conversations.map convCost).sum

theorem mkSplitConv_messages (cv : Conversation) (ms : List Message) (b : Bool) :
    (mkSplitConv cv ms b).messages = ms := by
  cases b <;> simp [mkSplitConv]

theorem mkSplitConv_marker (cv : Conversation) (ms : List Message) (b : Bool) :
    (mkSplitConv cv ms b).chunked = true ∨ (mkSplitConv cv ms b).chunkedByRole = true := by
  cases b <;> simp [mkSplitConv]

/-- The serialization of a derived single-message conversation embeds the
serialization of its message, so its cost is at least the message's cost. -/
theorem msgCost_le_convCost_single (cv : Conversation) (m : Message) (b : Bool) :
    msgCost m ≤ convCost (mkSplitConv cv [m] b) := by
  apply Nat.div_le_div_right
  cases b <;>
    simp [mkSplitConv, dumpConversation, joinSep, String.length_append] <;>
    omega

/-- The shape every chunk emitted by the size and role strategies satisfies:
the declared strategy label, a non-empty conversation list, and either a
whole-conversation chunk whose token_count is the exact cost sum within
budget, or a split chunk holding one derived partial conversation whose
token_count sums the costs of the individual messages (within budget except
when the chunk is a single message that alone overflows). -/
def goodChunk (max_tokens : Nat) (strategy : String) (c : Chunk) : Prop :=
  c.chunk_strategy = strategy ∧ c.conversations ≠ [] ∧
  ((c.token_count = entryCostSum c ∧ c.token_count ≤ max_tokens) ∨
   (∃ cv ms b, c.conversations = [mkSplitConv cv ms b] ∧
      c.token_count = (ms.map msgCost).sum ∧ ms ≠ [] ∧
      (c.token_count ≤ max_tokens ∨ ∃ m, ms = [m])))

theorem splitOversized_good (cv : Conversation) (mt : Nat) (b : Bool) (s : String) :
    ∀ (msgs temp : List Message) (ttok : Nat),
      ttok = (temp.map msgCost).sum →
      (ttok ≤ mt ∨ ∃ m, temp = [m]) →
      ∀ c ∈ splitOversized cv mt b s msgs temp ttok, goodChunk mt s c := by
  intro msgs
  induction msgs with
  | nil =>
    intro temp ttok hsum hinv c hc
    by_cases he : temp.isEmpty
    · simp [splitOversized, he] at hc
    · simp [splitOversized, he] at hc
      subst hc
      refine ⟨rfl, by simp, Or.inr ⟨cv, temp, b, rfl, hsum, ?_, hinv⟩⟩
      simpa [List.isEmpty_iff] using he
  | cons msg rest ih =>
    intro temp ttok hsum hinv c hc
    rw [splitOversized] at hc
    by_cases hover : ttok + msgCost msg > mt
    · by_cases he : temp.isEmpty
      · simp only [if_pos hover, if_pos he] at hc
        exact ih temp ttok hsum hinv c hc
      · rw [if_pos hover, if_neg he, List.mem_cons] at hc
        rcases hc with hc | hc
        · subst hc
          refine ⟨rfl, by simp, Or.inr ⟨cv, temp, b, rfl, hsum, ?_, hinv⟩⟩
          simpa [List.isEmpty_iff] using he
        · exact ih [msg] (msgCost msg) (by simp) (Or.inr ⟨msg, rfl⟩) c hc
    · rw [if_neg hover] at hc
      exact ih (temp ++ [msg]) (ttok + msgCost msg) (by simp [hsum])
        (Or.inl (by omega)) c hc

theorem sizeLoop_good (mt : Nat) :
    ∀ (convs current : List Conversation) (ctok : Nat),
      ctok = (current.map convCost).sum → ctok ≤ mt →
      ∀ c ∈ sizeLoop mt convs current ctok, goodChunk mt "size" c := by
  intro convs
  induction convs with
  | nil =>
    intro current ctok hsum hle c hc
    by_cases he : current.isEmpty
    · simp [sizeLoop, he] at hc
    · simp [sizeLoop, he] at hc
      subst hc
      exact ⟨rfl, by simpa [List.isEmpty_iff] using he,
        Or.inl ⟨by simpa [entryCostSum] using hsum, hle⟩⟩
  | cons conv rest ih =>
    intro current ctok hsum hle c hc
    rw [sizeLoop] at hc
    by_cases hover : convCost conv > mt
    · rw [if_pos hover] at hc
      rw [List.mem_append, List.mem_append] at hc
      rcases hc with (hc | hc) | hc
      · by_cases he : current.isEmpty
        · simp [he] at hc
        · rw [if_neg he, List.mem_singleton] at hc
          subst hc
          exact ⟨rfl, by simpa [List.isEmpty_iff] using he,
            Or.inl ⟨by simpa [entryCostSum] using hsum, hle⟩⟩
      · exact splitOversized_good conv mt false "size" conv.messages [] 0
          (by simp) (Or.inl (by omega)) c hc
      · exact ih [] 0 (by simp) (by omega) c hc
    · rw [if_neg hover] at hc
      by_cases hfit : ctok + convCost conv ≤ mt
      · rw [if_pos hfit] at hc
        exact ih (current ++ [conv]) (ctok + convCost conv)
          (by simp [hsum]) hfit c hc
      · rw [if_neg hfit, List.mem_cons] at hc
        rcases hc with hc | hc
        · subst hc
          refine ⟨rfl, ?_, Or.inl ⟨by simpa [entryCostSum] using hsum, hle⟩⟩
          intro hnil
          simp only at hnil
          subst hnil
          simp at hsum
          omega
        · exact ih [conv] (convCost conv) (by simp) (by omega) c hc

theorem roleLoop_good (mt : Nat) :
    ∀ (pairs : List (Conversation × List Message)) (current : List Conversation)
      (ctok : Nat),
      ctok = (current.map convCost).sum → ctok ≤ mt →
      ∀ c ∈ roleLoop mt pairs current ctok, goodChunk mt "role" c := by
  intro pairs
  induction pairs with
  | nil =>
    intro current ctok hsum hle c hc
    by_cases he : current.isEmpty
    · simp [roleLoop, he] at hc
    · simp [roleLoop, he] at hc
      subst hc
      exact ⟨rfl, by simpa [List.isEmpty_iff] using he,
        Or.inl ⟨by simpa [entryCostSum] using hsum, hle⟩⟩
  | cons pair rest ih =>
    obtain ⟨conv, group⟩ := pair
    intro current ctok hsum hle c hc
    rw [roleLoop] at hc
    by_cases hover : convCost (mkSplitConv conv group true) > mt
    · rw [if_pos hover, List.mem_append] at hc
      rcases hc with hc | hc
      · exact splitOversized_good conv mt true "role" group [] 0 (by simp)
          (Or.inl (by omega)) c hc
      · exact ih current ctok hsum hle c hc
    · rw [if_neg hover] at hc
      by_cases hfit : ctok + convCost (mkSplitConv conv group true) ≤ mt
      · rw [if_pos hfit] at hc
        exact ih (current ++ [mkSplitConv conv group true])
          (ctok + convCost (mkSplitConv conv group true)) (by simp [hsum]) hfit c hc
      · rw [if_neg hfit, List.mem_append] at hc
        rcases hc with hc | hc
        · by_cases he : current.isEmpty
          · simp [he] at hc
          · rw [if_neg he, List.mem_singleton] at hc
            subst hc
            exact ⟨rfl, by simpa [List.isEmpty_iff] using he,
              Or.inl ⟨by simpa [entryCostSum] using hsum, hle⟩⟩
        · exact ih [mkSplitConv conv group true] (convCost (mkSplitConv conv group true))
            (by simp) (by omega) c hc

/-- Token-cost sum of the conversations named by a cluster's index list. -/
def clusterSum (conversations : List Conversation) (cluster : List Nat) : Nat :=
  (cluster.map (fun i => convCost (conversations.getD i default))).sum

theorem topicInner_budget (convs : List Conversation) (topics : List String)
    (seed : String) (mt : Nat) :
    ∀ (js : List Nat) (assigned : List Bool) (cluster : List Nat) (ctok : Nat),
      ctok = clusterSum convs cluster → cluster ≠ [] →
      (topicInner convs topics seed mt js assigned cluster ctok).2.2 =
        clusterSum convs (topicInner convs topics seed mt js assigned cluster ctok).2.1 ∧
      (topicInner convs topics seed mt js assigned cluster ctok).2.1 ≠ [] ∧
      ((topicInner convs topics seed mt js assigned cluster ctok).2.2 ≤ mt ∨
        (topicInner convs topics seed mt js assigned cluster ctok).2.1 = cluster) := by
  intro js
  induction js with
  | nil =>
    intro assigned cluster ctok hsum hne
    exact ⟨hsum, hne, Or.inr rfl⟩
  | cons j js ih =>
    intro assigned cluster ctok hsum hne
    rw [topicInner]
    by_cases ha : assigned.getD j false
    · simp only [ha, if_true]
      exact ih assigned cluster ctok hsum hne
    · simp only [ha, Bool.false_eq_true, if_false]
      by_cases hsim : similarityOk seed (topics.getD j "")
      · simp only [hsim, if_true]
        by_cases hfit : ctok + convCost (convs.getD j default) ≤ mt
        · simp only [hfit, if_true]
          rcases ih (assigned.set j true) (cluster ++ [j])
              (ctok + convCost (convs.getD j default))
              (by simp [clusterSum, hsum]) (by simp) with ⟨h1, h2, h3⟩
          refine ⟨h1, h2, ?_⟩
          rcases h3 with h3 | h3
          · exact Or.inl h3
          · rw [h1, h3]
            exact Or.inl (by simpa [clusterSum, hsum] using hfit)
        · simp only [hfit, if_false]
          exact ih assigned cluster ctok hsum hne
      · simp only [hsim, Bool.false_eq_true, if_false]
        exact ih assigned cluster ctok hsum hne

theorem topicOuter_budget (convs : List Conversation) (topics : List String)
    (mt : Nat) :
    ∀ (is : List Nat) (assigned : List Bool),
      ∀ p ∈ topicOuter convs topics mt is assigned,
        p.2 = clusterSum convs p.1 ∧ p.1 ≠ [] ∧
        (p.2 ≤ mt ∨ ∃ i, p.1 = [i] ∧ p.2 = convCost (convs.getD i default)) := by
  intro is
  induction is with
  | nil => intro assigned p hp; simp [topicOuter] at hp
  | cons i is ih =>
    intro assigned p hp
    rw [topicOuter] at hp
    by_cases ha : assigned.getD i false
    · simp only [ha, if_true] at hp
      exact ih assigned p hp
    · simp only [ha, Bool.false_eq_true, if_false, List.mem_cons] at hp
      rcases hp with hp | hp
      · subst hp
        rcases topicInner_budget convs topics (topics.getD i "") mt is
            (assigned.set i true) [i] (convCost (convs.getD i default))
            (by simp [clusterSum]) (by simp) with ⟨h1, h2, h3⟩
        refine ⟨h1, h2, ?_⟩
        rcases h3 with h3 | h3
        · exact Or.inl h3
        · refine Or.inr ⟨i, h3, ?_⟩
          rw [h1, h3]
          simp [clusterSum]
      · exact ih _ p hp

/-- Every chunk the topic strategy emits: labelled "topic", non-empty,
token_count the exact cost sum of its entries, and within budget unless it is
a single conversation whose own cost is the whole count. -/
theorem chunk_by_topic_good (convs : List Conversation) (mt : Nat) :
    ∀ c ∈ chunk_by_topic convs mt,
      c.chunk_strategy = "topic" ∧ c.conversations ≠ [] ∧
      c.token_count = entryCostSum c ∧
      (c.token_count ≤ mt ∨ ∃ e, c.conversations = [e] ∧ c.token_count = convCost e) := by
  intro c hc
  rw [chunk_by_topic, List.mem_map] at hc
  obtain ⟨p, hp, hpc⟩ := hc
  rcases topicOuter_budget convs (convs.map topicOf) mt _ _ p hp with ⟨h1, h2, h3⟩
  subst hpc
  refine ⟨rfl, by simpa using h2, ?_, ?_⟩
  · simp only [entryCostSum, List.map_map]
    exact h1
  · rcases h3 with h3 | ⟨i, hi, hv⟩
    · exact Or.inl h3
    · exact Or.inr ⟨convs.getD i default, by simp [hi], hv⟩

theorem getD_set_self (l : List Bool) (i : Nat) (h : i < l.length) :
    (l.set i true).getD i false = true := by
  induction l generalizing i with
  | nil => simp at h
  | cons a l ih =>
    cases i with
    | zero => simp [List.set, List.getD]
    | succ i =>
      simp only [List.set, List.getD_cons_succ]
      exact ih i (by simpa using h)

theorem getD_set_ne (l : List Bool) (i j : Nat) (v : Bool) (h : i ≠ j) :
    (l.set i v).getD j false = l.getD j false := by
  induction l generalizing i j with
  | nil => simp [List.set]
  | cons a l ih =>
    cases i with
    | zero =>
      cases j with
      | zero => exact absurd rfl h
      | succ j => simp [List.set, List.getD_cons_succ]
    | succ i =>
      cases j with
      | zero => simp [List.set, List.getD_cons_zero]
      | succ j =>
        simp only [List.set, List.getD_cons_succ]
        exact ih i j (fun hij => h (by rw [hij]))

theorem getD_replicate_false (n k : Nat) :
    (List.replicate n false).getD k false = false := by
  induction n generalizing k with
  | zero => simp [List.getD]
  | succ n ih =>
    cases k with
    | zero => simp [List.replicate]
    | succ k =>
      rw [List.replicate, List.getD_cons_succ]
      exact ih k

/-- Bookkeeping of the inner scan: the cluster grows by a duplicate-free list
of indices drawn from the scanned list, each of which was unassigned before
and is assigned after; every other index's assignment flag is untouched, and
the flag list keeps its length. -/
theorem topicInner_mark (convs : List Conversation) (topics : List String)
    (seed : String) (mt : Nat) :
    ∀ (js : List Nat) (assigned : List Bool) (cluster : List Nat) (ctok : Nat),
      (∀ j ∈ js, j < assigned.length) →
      (topicInner convs topics seed mt js assigned cluster ctok).1.length =
        assigned.length ∧
      ∃ added,
        (topicInner convs topics seed mt js assigned cluster ctok).2.1 =
          cluster ++ added ∧
        added.Nodup ∧
        (∀ k ∈ added, k ∈ js ∧ assigned.getD k false = false ∧
          (topicInner convs topics seed mt js assigned cluster ctok).1.getD k false = true) ∧
        (∀ k, k ∉ added →
          (topicInner convs topics seed mt js assigned cluster ctok).1.getD k false =
            assigned.getD k false) := by
  intro js
  induction js with
  | nil =>
    intro assigned cluster ctok _
    exact ⟨rfl, [], by simp [topicInner], by simp, by simp, fun k _ => rfl⟩
  | cons j js ih =>
    intro assigned cluster ctok hbound
    rw [topicInner]
    by_cases ha : assigned.getD j false
    · simp only [ha, if_true]
      rcases ih assigned cluster ctok (fun x hx => hbound x (List.mem_cons_of_mem j hx))
        with ⟨hlen, added, h1, h2, h3, h4⟩
      exact ⟨hlen, added, h1, h2,
        fun k hk => ⟨List.mem_cons_of_mem j (h3 k hk).1, (h3 k hk).2⟩, h4⟩
    · simp only [ha, Bool.false_eq_true, if_false]
      by_cases hsim : similarityOk seed (topics.getD j "")
      · simp only [hsim, if_true]
        by_cases hfit : ctok + convCost (convs.getD j default) ≤ mt
        · simp only [hfit, if_true]
          have hjlen : j < assigned.length := hbound j (List.mem_cons_self j js)
          rcases ih (assigned.set j true) (cluster ++ [j])
              (ctok + convCost (convs.getD j default))
              (fun x hx => by
                rw [List.length_set]
                exact hbound x (List.mem_cons_of_mem j hx))
            with ⟨hlen, added, h1, h2, h3, h4⟩
          have hjadded : j ∉ added := by
            intro hj
            have := (h3 j hj).2.1
            rw [getD_set_self assigned j hjlen] at this
            exact Bool.true_eq_false.mp this
          refine ⟨by rw [hlen, List.length_set], j :: added, by rw [h1]; simp, ?_, ?_, ?_⟩
          · exact List.nodup_cons.mpr ⟨hjadded, h2⟩
          · intro k hk
            rcases List.mem_cons.mp hk with hk | hk
            · subst hk
              refine ⟨List.mem_cons_self k js, by simpa using ha, ?_⟩
              rw [h4 k hjadded]
              exact getD_set_self assigned k hjlen
            · have hkj : j ≠ k := by
                intro hjk
                exact hjadded (hjk ▸ hk)
              rcases h3 k hk with ⟨hk1, hk2, hk3⟩
              rw [getD_set_ne assigned j k true hkj] at hk2
              exact ⟨List.mem_cons_of_mem j hk1, hk2, hk3⟩
          · intro k hk
            have hkadded : k ∉ added := fun hx => hk (List.mem_cons_of_mem j hx)
            have hkj : j ≠ k := by
              intro hjk
              exact hk (hjk ▸ List.mem_cons_self k added)
            rw [h4 k hkadded]
            exact getD_set_ne assigned j k true hkj
        · simp only [hfit, if_false]
          rcases ih assigned cluster ctok
              (fun x hx => hbound x (List.mem_cons_of_mem j hx))
            with ⟨hlen, added, h1, h2, h3, h4⟩
          exact ⟨hlen, added, h1, h2,
            fun k hk => ⟨List.mem_cons_of_mem j (h3 k hk).1, (h3 k hk).2⟩, h4⟩
      · simp only [hsim, Bool.false_eq_true, if_false]
        rcases ih assigned cluster ctok
            (fun x hx => hbound x (List.mem_cons_of_mem j hx))
          with ⟨hlen, added, h1, h2, h3, h4⟩
        exact ⟨hlen, added, h1, h2,
          fun k hk => ⟨List.mem_cons_of_mem j (h3 k hk).1, (h3 k hk).2⟩, h4⟩

/-- The index lists of the emitted clusters, concatenated in order. -/
def clusterIndices (clusters : List (List Nat × Nat)) : List Nat :=
  (clusters.map Prod.fst).flatten

/-- Counting argument for the outer seed loop: an index of the iteration list
appears in the emitted clusters exactly once if it is unassigned on entry,
never otherwise. -/
theorem topicOuter_count (convs : List Conversation) (topics : List String)
    (mt : Nat) :
    ∀ (is : List Nat) (assigned : List Bool), is.Nodup →
      (∀ i ∈ is, i < assigned.length) →
      ∀ k, (clusterIndices (topicOuter convs topics mt is assigned)).count k =
        if k ∈ is ∧ assigned.getD k false = false then 1 else 0 := by
  intro is
  induction is with
  | nil =>
    intro assigned _ _ k
    simp [topicOuter, clusterIndices]
  | cons i is ih =>
    intro assigned hnd hbound k
    have hnd' : is.Nodup := (List.nodup_cons.mp hnd).2
    have hini : i ∉ is := (List.nodup_cons.mp hnd).1
    have hilen : i < assigned.length := hbound i (List.mem_cons_self i is)
    have hmem : ∀ (b : List Bool), k ≠ i →
        ((k ∈ i :: is ∧ b.getD k false = false) ↔ (k ∈ is ∧ b.getD k false = false)) := by
      intro b hk
      constructor
      · rintro ⟨h, hf⟩
        exact ⟨(List.mem_cons.mp h).resolve_left hk, hf⟩
      · rintro ⟨h, hf⟩
        exact ⟨List.mem_cons_of_mem i h, hf⟩
    rw [topicOuter]
    by_cases ha : assigned.getD i false
    · simp only [ha, if_true]
      rw [ih assigned hnd' (fun x hx => hbound x (List.mem_cons_of_mem i hx)) k]
      by_cases hk : k = i
      · subst hk
        have hfa : ¬ assigned.getD k false = false := by
          rw [ha]
          simp
        rw [if_neg (fun h => hfa h.2), if_neg (fun h => hfa h.2)]
      · rw [if_congr (hmem assigned hk) rfl rfl]
    · simp only [ha, Bool.false_eq_true, if_false]
      rcases topicInner_mark convs topics (topics.getD i "") mt is
          (assigned.set i true) [i] (convCost (convs.getD i default))
          (fun x hx => by
            rw [List.length_set]
            exact hbound x (List.mem_cons_of_mem i hx))
        with ⟨hlen, added, h1, h2, h3, h4⟩
      have ihx := ih (topicInner convs topics (topics.getD i "") mt is
          (assigned.set i true) [i] (convCost (convs.getD i default))).1 hnd'
        (fun x hx => by
          rw [hlen, List.length_set]
          exact hbound x (List.mem_cons_of_mem i hx)) k
      simp only [clusterIndices, List.map_cons, List.flatten_cons,
        List.count_append] at ihx ⊢
      rw [h1, List.count_append, ihx]
      have hiadded : i ∉ added := by
        intro hx
        exact hini (h3 i hx).1
      by_cases hk : k = i
      · subst hk
        have hfin : (topicInner convs topics (topics.getD k "") mt is
            (assigned.set k true) [k] (convCost (convs.getD k default))).1.getD k false
            = true := by
          rw [h4 k hiadded]
          exact getD_set_self assigned k hilen
        have hc1 : List.count k [k] = 1 := by simp
        have hc2 : List.count k added = 0 := List.count_eq_zero.mpr hiadded
        have hfa : ¬ (topicInner convs topics (topics.getD k "") mt is
            (assigned.set k true) [k] (convCost (convs.getD k default))).1.getD k false
            = false := by
          rw [hfin]
          simp
        rw [hc1, hc2, if_neg (fun h => hfa h.2), if_pos ⟨List.mem_cons_self k is, by simpa using ha⟩]
      · have hc1 : List.count k [i] = 0 := List.count_eq_zero.mpr (by simp [hk])
        rw [hc1]
        by_cases hkadded : k ∈ added
        · have hfin : (topicInner convs topics (topics.getD i "") mt is
              (assigned.set i true) [i] (convCost (convs.getD i default))).1.getD k false
              = true := (h3 k hkadded).2.2
          have hkis : k ∈ is := (h3 k hkadded).1
          have hfa : ¬ (topicInner convs topics (topics.getD i "") mt is
              (assigned.set i true) [i] (convCost (convs.getD i default))).1.getD k false
              = false := by
            rw [hfin]
            simp
          have hkold : assigned.getD k false = false := by
            have := (h3 k hkadded).2.1
            rw [getD_set_ne assigned i k true (fun h => hk h.symm)] at this
            exact this
          rw [List.count_eq_one_of_mem h2 hkadded, if_neg (fun h => hfa h.2),
            if_pos ⟨List.mem_cons_of_mem i hkis, hkold⟩]
        · have hfin : (topicInner convs topics (topics.getD i "") mt is
              (assigned.set i true) [i] (convCost (convs.getD i default))).1.getD k false
              = assigned.getD k false := by
            rw [h4 k hkadded]
            exact getD_set_ne assigned i k true (fun h => hk h.symm)
          rw [List.count_eq_zero.mpr hkadded, hfin,
            if_congr (hmem assigned hk) rfl rfl]
          omega

/-- A small conversation used to instantiate the general theorems. -/
def wMsg : Message := ⟨"user", "hi"⟩

/-- A small conversation used to instantiate the general theorems. -/
def wConv : Conversation := ⟨"a", "t", [wMsg], false, false⟩

/-- A second small conversation with an unrelated title. -/
def wConv2 : Conversation := ⟨"b", "different words here", [⟨"assistant", "ok"⟩], false, false⟩

/-- C1: for every input conversation list and every max_tokens > 0, every
chunk produced by any of the three strategies has token_count ≤ max_tokens,
except when the chunk contains exactly one conversation or message-run whose
own estimated token cost already exceeds max_tokens. -/
theorem token_budget_property (convs : List Conversation) (mt : Nat)
    (hmt : 0 < mt) (c : Chunk)
    (hc : c ∈ chunk_by_size convs mt ∨ c ∈ chunk_by_topic convs mt ∨
      c ∈ chunk_by_role convs mt) :
    c.token_count ≤ mt ∨ ∃ e, c.conversations = [e] ∧ mt < convCost e := by
  rcases hc with hc | hc | hc
  · rw [chunk_by_size] at hc
    rcases sizeLoop_good mt convs [] 0 (by simp) (by omega) c hc with ⟨-, -, hg⟩
    rcases hg with ⟨-, hle⟩ | ⟨cv, ms, b, hconvs, hsum, -, hrest⟩
    · exact Or.inl hle
    · rcases hrest with hle | ⟨m, hm⟩
      · exact Or.inl hle
      · subst hm
        by_cases htc : c.token_count ≤ mt
        · exact Or.inl htc
        · refine Or.inr ⟨mkSplitConv cv [m] b, hconvs, ?_⟩
          have h1 := msgCost_le_convCost_single cv m b
          simp at hsum
          omega
  · rcases chunk_by_topic_good convs mt c hc with ⟨-, -, -, hbud⟩
    rcases hbud with hle | ⟨e, he, hv⟩
    · exact Or.inl hle
    · by_cases htc : c.token_count ≤ mt
      · exact Or.inl htc
      · exact Or.inr ⟨e, he, by omega⟩
  · rw [chunk_by_role] at hc
    rcases roleLoop_good mt (rolePairs convs) [] 0 (by simp) (by omega) c hc
      with ⟨-, -, hg⟩
    rcases hg with ⟨-, hle⟩ | ⟨cv, ms, b, hconvs, hsum, -, hrest⟩
    · exact Or.inl hle
    · rcases hrest with hle | ⟨m, hm⟩
      · exact Or.inl hle
      · subst hm
        by_cases htc : c.token_count ≤ mt
        · exact Or.inl htc
        · refine Or.inr ⟨mkSplitConv cv [m] b, hconvs, ?_⟩
          have h1 := msgCost_le_convCost_single cv m b
          simp at hsum
          omega

/-- Witness instantiating the C1 theorem at a concrete input. -/
theorem token_budget_property_witness :
    (Chunk.mk [wConv] (convCost wConv) "size").token_count ≤ 100 ∨
    ∃ e, (Chunk.mk [wConv] (convCost wConv) "size").conversations = [e] ∧
      100 < convCost e :=
  token_budget_property [wConv] 100 (by decide)
    (Chunk.mk [wConv] (convCost wConv) "size") (Or.inl (by decide))

/-- C5 (amended): every chunk of the topic strategy carries token_count equal
to the sum of its entries' serialization costs; chunks of the size and role
strategies do too except split chunks, whose token_count is the sum of the
costs of the individual messages of their single derived entry (excluding the
serialization overhead of the derived wrapper itself). -/
theorem token_count_sums (convs : List Conversation) (mt : Nat) (c : Chunk) :
    (c ∈ chunk_by_size convs mt ∨ c ∈ chunk_by_role convs mt →
      c.token_count = entryCostSum c ∨
      ∃ e, c.conversations = [e] ∧ (e.chunked = true ∨ e.chunkedByRole = true) ∧
        c.token_count = (e.messages.map msgCost).sum) ∧
    (c ∈ chunk_by_topic convs mt → c.token_count = entryCostSum c) := by
  constructor
  · intro hc
    have hg : goodChunk mt "size" c ∨ goodChunk mt "role" c := by
      rcases hc with hc | hc
      · rw [chunk_by_size] at hc
        exact Or.inl (sizeLoop_good mt convs [] 0 (by simp) (by omega) c hc)
      · rw [chunk_by_role] at hc
        exact Or.inr (roleLoop_good mt (rolePairs convs) [] 0 (by simp) (by omega) c hc)
    have hg2 : (c.token_count = entryCostSum c ∧ c.token_count ≤ mt) ∨
        (∃ cv ms b, c.conversations = [mkSplitConv cv ms b] ∧
          c.token_count = (ms.map msgCost).sum ∧ ms ≠ [] ∧
          (c.token_count ≤ mt ∨ ∃ m, ms = [m])) := by
      rcases hg with hg | hg
      · exact hg.2.2
      · exact hg.2.2
    rcases hg2 with ⟨hsum, -⟩ | ⟨cv, ms, b, hconvs, hsum, -, -⟩
    · exact Or.inl hsum
    · refine Or.inr ⟨mkSplitConv cv ms b, hconvs, mkSplitConv_marker cv ms b, ?_⟩
      rw [mkSplitConv_messages]
      exact hsum
  · intro hc
    exact (chunk_by_topic_good convs mt c hc).2.2.1

/-- Witness instantiating the C5 theorem at a concrete input. -/
theorem token_count_sums_witness :
    (Chunk.mk [wConv] (convCost wConv) "topic").token_count =
      entryCostSum (Chunk.mk [wConv] (convCost wConv) "topic") :=
  (token_count_sums [wConv] 100 (Chunk.mk [wConv] (convCost wConv) "topic")).2
    (by decide)

/-- C7: under the topic strategy every input conversation index appears in
exactly one emitted cluster, and the emitted chunks are exactly the clusters'
index lists mapped to the input conversations. -/
theorem topic_exactly_once (convs : List Conversation) (mt : Nat) (k : Nat)
    (hk : k < convs.length) :
    (clusterIndices (topicClusters convs mt)).count k = 1 ∧
    (chunk_by_topic convs mt).map Chunk.conversations =
      (topicClusters convs mt).map (fun cl => cl.1.map (fun i => convs.getD i default)) := by
  constructor
  · rw [topicClusters]
    rw [topicOuter_count convs (convs.map topicOf) mt
      (List.range convs.length) (List.replicate convs.length false)
      (List.nodup_range convs.length) (fun i hi => by
        rw [List.length_replicate]
        exact List.mem_range.mp hi) k]
    rw [if_pos ⟨List.mem_range.mpr hk, getD_replicate_false convs.length k⟩]
  · rw [chunk_by_topic, List.map_map]
    rfl

/-- Witness instantiating the C7 theorem at a concrete input. -/
theorem topic_exactly_once_witness :
    (clusterIndices (topicClusters [wConv, wConv2] 100)).count 0 = 1 ∧
    (chunk_by_topic [wConv, wConv2] 100).map Chunk.conversations =
      (topicClusters [wConv, wConv2] 100).map
        (fun cl => cl.1.map (fun i => [wConv, wConv2].getD i default)) :=
  topic_exactly_once [wConv, wConv2] 100 0 (by decide)

/-- C8: each strategy is deterministic; two invocations on identical inputs
return identical chunk lists (each strategy being a pure function of its
arguments, with no randomness or clock access anywhere in its definition). -/
theorem strategies_deterministic (convs1 convs2 : List Conversation)
    (mt1 mt2 : Nat) (h1 : convs1 = convs2) (h2 : mt1 = mt2) :
    chunk_by_size convs1 mt1 = chunk_by_size convs2 mt2 ∧
    chunk_by_topic convs1 mt1 = chunk_by_topic convs2 mt2 ∧
    chunk_by_role convs1 mt1 = chunk_by_role convs2 mt2 := by
  subst h1
  subst h2
  exact ⟨rfl, rfl, rfl⟩

/-- Witness instantiating the C8 theorem at a concrete input. -/
theorem strategies_deterministic_witness :
    chunk_by_size [wConv] 100 = chunk_by_size [wConv] 100 ∧
    chunk_by_topic [wConv] 100 = chunk_by_topic [wConv] 100 ∧
    chunk_by_role [wConv] 100 = chunk_by_role [wConv] 100 :=
  strategies_deterministic [wConv] [wConv] 100 100 rfl rfl

/-- C9: the driver fails with the invalid-input error when the loaded
collection is neither a list nor an object exposing conversations, fails with
the unknown-strategy error when the strategy is outside the three known
names, and in both situations produces no ProcessingResult. -/
theorem process_file_error_contract (fp : String) (data : LoadedData)
    (strategy : String) (mt : Nat) :
    (data = .malformed → process_file fp data strategy mt = .error invalidFormatMsg) ∧
    (strategy ≠ "size" → strategy ≠ "topic" → strategy ≠ "role" →
      data ≠ .malformed →
      process_file fp data strategy mt = .error (unknownStrategyMsg strategy)) ∧
    ((data = .malformed ∨ (strategy ≠ "size" ∧ strategy ≠ "topic" ∧ strategy ≠ "role")) →
      ∀ r : ProcessingResult, process_file fp data strategy mt ≠ .ok r) := by
    refine ⟨?_, ?_, ?_⟩
    · intro h
      subst h
      rfl
    · intro h1 h2 h3 h4
      cases data with
      | malformed => exact absurd rfl h4
      | wrapped convs => simp [process_file, h1, h2, h3]
      | bareList convs => simp [process_file, h1, h2, h3]
    · intro h r
      rcases h with h | ⟨h1, h2, h3⟩
      · subst h
        simp [process_file]
      · cases data with
        | malformed => simp [process_file]
        | wrapped convs => simp [process_file, h1, h2, h3]
        | bareList convs => simp [process_file, h1, h2, h3]

/-- Witness instantiating the C9 theorem at concrete inputs. -/
theorem process_file_error_contract_witness :
    process_file "f.json" .malformed "size" 10 = .error invalidFormatMsg ∧
    process_file "f.json" (.bareList []) "frobnicate" 10 =
      .error (unknownStrategyMsg "frobnicate") ∧
    process_file "f.json" (.bareList []) "frobnicate" 10 ≠
      .ok ⟨[], "f.json", "frobnicate", 10, 0, 0⟩ :=
  ⟨(process_file_error_contract "f.json" .malformed "size" 10).1 rfl,
   (process_file_error_contract "f.json" (.bareList []) "frobnicate" 10).2.1
     (by decide) (by decide) (by decide) (by decide),
   (process_file_error_contract "f.json" (.bareList []) "frobnicate" 10).2.2
     (Or.inr ⟨by decide, by decide, by decide⟩) ⟨[], "f.json", "frobnicate", 10, 0, 0⟩⟩

/-- C10: no strategy ever emits a chunk whose conversations list is empty. -/
theorem no_empty_chunks (convs : List Conversation) (mt : Nat) (hmt : 0 < mt)
    (c : Chunk)
    (hc : c ∈ chunk_by_size convs mt ∨ c ∈ chunk_by_topic convs mt ∨
      c ∈ chunk_by_role convs mt) :
    c.conversations ≠ [] := by
  rcases hc with hc | hc | hc
  · rw [chunk_by_size] at hc
    exact (sizeLoop_good mt convs [] 0 (by simp) (by omega) c hc).2.1
  · exact (chunk_by_topic_good convs mt c hc).2.1
  · rw [chunk_by_role] at hc
    exact (roleLoop_good mt (rolePairs convs) [] 0 (by simp) (by omega) c hc).2.1

/-- Witness instantiating the C10 theorem at a concrete input. -/
theorem no_empty_chunks_witness :
    (Chunk.mk [wConv] (convCost wConv) "size").conversations ≠ [] :=
  no_empty_chunks [wConv] 100 (by decide)
    (Chunk.mk [wConv] (convCost wConv) "size") (Or.inl (by decide))

/-- A message whose own serialized cost (23 tokens) exceeds a budget of 10. -/
def msgBigA : Message :=
  ⟨"user", "This message is certainly long enough to exceed the tiny budget"⟩

/-- A conversation holding only msgBigA. -/
def cvBigA : Conversation := ⟨"c1", "T", [msgBigA], false, false⟩

/-- C2 (failing evaluation): with budget 10 the input holds one message, the
conversation is oversized and so is its first (and only) message, and both
the size and the role strategies emit nothing at all: the message is silently
dropped by the guarded split loop, so the total message count is not
preserved. -/
theorem completeness_failure_eval :
    totalInputMessages [cvBigA] = 1 ∧
    10 < msgCost msgBigA ∧ 10 < convCost cvBigA ∧
    chunk_by_size [cvBigA] 10 = [] ∧
    chunk_by_role [cvBigA] 10 = [] ∧
    totalChunkMessages (chunk_by_size [cvBigA] 10) = 0 ∧
    totalChunkMessages (chunk_by_role [cvBigA] 10) = 0 := by decide

/-- A second oversized message for the C4 evaluation, cost 24 tokens. -/
def msgBigB : Message :=
  ⟨"user", "Another sufficiently long message that overflows the small budget"⟩

/-- A conversation holding only msgBigB. -/
def cvBigB : Conversation := ⟨"c2", "U", [msgBigB], false, false⟩

/-- C4 (failing evaluation): a single message whose own cost exceeds the
budget of 12 is not emitted alone as its own chunk: when it is the first
message of the oversized split both strategies discard it and emit no chunk
at all. -/
theorem oversized_message_discarded_eval :
    12 < msgCost msgBigB ∧ 12 < convCost cvBigB ∧
    chunk_by_size [cvBigB] 12 = [] ∧
    chunk_by_role [cvBigB] 12 = [] := by decide

/-- First role group of the C3 conversation: one user message, cost 11. -/
def roleMsgA : Message := ⟨"user", "hi there friend"⟩

/-- Second role group, first message, cost 16. -/
def roleMsgB1 : Message := ⟨"assistant", "aaaaaaaaaaaaaaaaaaaaaaaaaaaaaa"⟩

/-- Second role group, second message, cost 16. -/
def roleMsgB2 : Message := ⟨"assistant", "bbbbbbbbbbbbbbbbbbbbbbbbbbbbbb"⟩

/-- A conversation whose second role group is oversized for budget 40 while
its messages individually fit. -/
def cvRole : Conversation :=
  ⟨"c", "t", [roleMsgA, roleMsgB1, roleMsgB2], false, false⟩

/-- C3 (failing evaluation): with budget 40 the first role group is packed
into the outer running chunk, the second role group is oversized (cost 50),
and its split piece is emitted immediately while the outer chunk holding the
earlier user message is only flushed afterwards: the concatenated emitted
order no longer reconstructs the original message order. -/
theorem role_flush_order_violation_eval :
    cvRole.messages = [roleMsgA, roleMsgB1, roleMsgB2] ∧
    40 < convCost (mkSplitConv cvRole [roleMsgB1, roleMsgB2] true) ∧
    convCost (mkSplitConv cvRole [roleMsgA] true) ≤ 40 ∧
    flattenedMessages (chunk_by_role [cvRole] 40) = [roleMsgB1, roleMsgB2, roleMsgA] ∧
    flattenedMessages (chunk_by_role [cvRole] 40) ≠ cvRole.messages := by decide

/-- A small message of cost 8 for the C5 counterexample. -/
def msgS1 : Message := ⟨"user", "aaaa"⟩

/-- A second small message of cost 8 for the C5 counterexample. -/
def msgS2 : Message := ⟨"user", "bbbb"⟩

/-- A conversation of cost 28, oversized for budget 20, whose two messages
cost 8 each. -/
def cvSplit : Conversation := ⟨"c1", "T", [msgS1, msgS2], false, false⟩

/-- C5 (counterexample): the split chunk emitted by the size strategy at
budget 20 carries token_count 16 (the sum of the two message costs), but the
serialization cost of its single derived conversation entry is 33: the claim
that token_count equals the sum of the entries' serialization costs fails. -/
theorem token_count_not_entry_sum :
    chunk_by_size [cvSplit] 20 =
      [⟨[mkSplitConv cvSplit [msgS1, msgS2] false], 16, "size"⟩] ∧
    entryCostSum ⟨[mkSplitConv cvSplit [msgS1, msgS2] false], 16, "size"⟩ = 33 ∧
    (16 : Nat) ≠ 33 := by decide

theorem escapeChar_a : escapeChar 'a' = "a" := by decide

theorem foldr_append_replicate_a (n : Nat) :
    (((List.replicate n 'a').map escapeChar).foldr (· ++ ·) "").length = n := by
  induction n with
  | zero => rfl
  | succ n ih =>
    rw [List.replicate, List.map_cons, List.foldr_cons, escapeChar_a,
      String.length_append, ih]
    have h1 : ("a" : String).length = 1 := rfl
    rw [h1]
    omega

theorem dumpString_replicate_a (n : Nat) :
    (dumpString (String.mk (List.replicate n 'a'))).length = n + 2 := by
  rw [dumpString]
  rw [String.length_append, String.length_append]
  have hdata : (String.mk (List.replicate n 'a')).data = List.replicate n 'a' := rfl
  rw [hdata, foldr_append_replicate_a]
  have h1 : ("\"" : String).length = 1 := rfl
  rw [h1]
  omega

/-- The scenario-C message: serialized length 1200 characters, 300 tokens. -/
def msg300 : Message := ⟨"user", String.mk (List.replicate 1169 'a')⟩

theorem dumpMessage_msg300_length : (dumpMessage msg300).length = 1200 := by
  rw [dumpMessage]
  rw [String.length_append, String.length_append, String.length_append,
    String.length_append]
  have hrole : (dumpString msg300.role).length = 6 := by decide
  have hcontent : msg300.content = String.mk (List.replicate 1169 'a') := rfl
  rw [hrole, hcontent, dumpString_replicate_a]
  decide

theorem msgCost_msg300 : msgCost msg300 = 300 := by
  rw [msgCost, count_tokens, dumpMessage_msg300_length]

/-- The scenario-C conversation: ten equal-cost messages of 300 tokens. -/
def cv300 : Conversation := ⟨"c1", "T", List.replicate 10 msg300, false, false⟩

theorem joinSep_cv300_length :
    (joinSep ((List.replicate 10 msg300).map dumpMessage)).length = 12018 := by
  have h := dumpMessage_msg300_length
  have hsep : (", " : String).length = 2 := rfl
  simp [List.replicate, joinSep, String.length_append, h, hsep]

theorem dumpConversation_cv300_length : (dumpConversation cv300).length = 12060 := by
  have h1 : (dumpString cv300.id).length = 4 := by decide
  have h2 : (dumpString cv300.title).length = 3 := by decide
  have h3 : cv300.messages = List.replicate 10 msg300 := rfl
  rw [dumpConversation]
  rw [if_neg (by decide : ¬ cv300.chunked = true),
    if_neg (by decide : ¬ cv300.chunkedByRole = true)]
  rw [h3]
  simp only [String.length_append, h1, h2, joinSep_cv300_length]
  decide

theorem convCost_cv300 : convCost cv300 = 3015 := by
  rw [convCost, count_tokens, dumpConversation_cv300_length]

/-- Full symbolic run of the size strategy on the scenario-C input: the
oversized conversation is split greedily into three 3-message partial
conversations of 900 tokens and one trailing 1-message partial conversation
of 300 tokens, all marked. -/
theorem chunk_by_size_cv300 :
    chunk_by_size [cv300] 1000 =
      [⟨[mkSplitConv cv300 [msg300, msg300, msg300] false], 900, "size"⟩,
       ⟨[mkSplitConv cv300 [msg300, msg300, msg300] false], 900, "size"⟩,
       ⟨[mkSplitConv cv300 [msg300, msg300, msg300] false], 900, "size"⟩,
       ⟨[mkSplitConv cv300 [msg300] false], 300, "size"⟩] := by
  have hmsgs : cv300.messages =
      [msg300, msg300, msg300, msg300, msg300, msg300, msg300, msg300, msg300,
        msg300] := rfl
  rw [chunk_by_size, sizeLoop]
  rw [if_pos (show convCost cv300 > 1000 by rw [convCost_cv300]; omega)]
  rw [hmsgs]
  simp [splitOversized, sizeLoop, msgCost_msg300]

/-- C6 (counterexample): the scenario-C input (one conversation of ten
300-token messages, necessarily costing more than 3000 tokens in serialized
form) yields four chunks under the size strategy at budget 1000, not three. -/
theorem scenario_c_counterexample :
    cv300.messages.length = 10 ∧
    msgCost msg300 = 300 ∧ cv300.messages = List.replicate 10 msg300 ∧
    1000 < convCost cv300 ∧
    (chunk_by_size [cv300] 1000).length = 4 ∧
    (chunk_by_size [cv300] 1000).length ≠ 3 := by
  refine ⟨rfl, msgCost_msg300, rfl, ?_, ?_, ?_⟩
  · rw [convCost_cv300]
    omega
  · rw [chunk_by_size_cv300]
    rfl
  · rw [chunk_by_size_cv300]
    simp

/-- C6 (amended): the scenario-C input yields exactly four synthetic
partial-conversation chunks of 3, 3, 3 and 1 messages, each marked
_chunked=true, with token counts 900, 900, 900 and 300. -/
theorem scenario_c_amended :
    (chunk_by_size [cv300] 1000).map
      (fun ch => (ch.conversations.map (fun e => (e.messages.length, e.chunked)),
        ch.token_count)) =
    [([(3, true)], 900), ([(3, true)], 900), ([(3, true)], 900),
     ([(1, true)], 300)] := by
  rw [chunk_by_size_cv300]
  simp [mkSplitConv]

end TotalRecall
